import Mathlib

/-!
Verification of the image-transform core of the `malbuch` repository.

The development shallowly embeds the pixel-level algorithms of the
repository: nearest-color search and k-means-style color quantization
(`imageProcessor.ts` / the sharp-based processor), palette extraction
(the Jimp-based processors), Sobel edge detection and grayscale
conversion (the canvas-based client processor), hex color formatting and
parsing, and the control flow of the Jimp-based coloring-page transform
with its bypass flag.  Machine numbers are modelled as `ℕ`/`ℤ`/`ℚ` with
the exact real-arithmetic semantics of the JavaScript expressions.
-/

/-- An RGB color sample: the `[number, number, number]` pixel tuples of
`quantizeColors` / `findNearestColor` in the source.  No alpha channel is
carried, matching the source, which builds the tuples from the first
three channels only. -/
structure Color where
  r : ℕ
  g : ℕ
  b : ℕ
  deriving DecidableEq, Repr

instance : Inhabited Color := ⟨⟨0, 0, 0⟩⟩

/-- Squared Euclidean RGB distance.  `findNearestColor` in the source
computes `Math.sqrt` of this sum (`Math.pow(pixel[0]-palette[i][0],2) +
...`) and compares those roots with `<`; the square root is strictly
monotone, so every comparison made by the loop has the same outcome on
the squared values, which is what the embedding stores.  The claim-level
theorems restate the minimality through `Real.sqrt`. -/
def distSq (p q : Color) : ℕ :=
  (((p.r : ℤ) - q.r) ^ 2 + ((p.g : ℤ) - q.g) ^ 2 + ((p.b : ℤ) - q.b) ^ 2).toNat

/-- `d < minDist`, where `none` encodes the initial `minDist = Infinity`
of `findNearestColor` (every finite distance is below `Infinity`). -/
def ltOpt (d : ℕ) : Option ℕ → Bool
  | none => true
  | some m => decide (d < m)

/-- The `for` loop of `findNearestColor`: state `(minDist, minIdx)`
starting at `(Infinity, 0)`, updated whenever `dist < minDist`, and the
final `minIdx` is returned. -/
def findNearestGo (pixel : Color) : List Color → ℕ → Option ℕ → ℕ → ℕ
  | [], _, _, minIdx => minIdx
  | c :: rest, i, minDist, minIdx =>
    if ltOpt (distSq pixel c) minDist then
      findNearestGo pixel rest (i + 1) (some (distSq pixel c)) i
    else
      findNearestGo pixel rest (i + 1) minDist minIdx

/-- `findNearestColor` of `imageProcessor.ts` and the sharp-based
processor: index of the palette color closest to `pixel` (first minimum
wins). -/
def findNearestColor (pixel : Color) (palette : List Color) : ℕ :=
  findNearestGo pixel palette 0 none 0

theorem findNearestGo_lt (pixel : Color) :
    ∀ (rest : List Color) (i : ℕ) (best : Option ℕ) (minIdx : ℕ),
      minIdx < i → findNearestGo pixel rest i best minIdx < i + rest.length := by
  intro rest
  induction rest with
  | nil =>
    intro i best minIdx h
    simpa [findNearestGo] using h
  | cons c rest ih =>
    intro i best minIdx h
    rw [findNearestGo]
    split
    · have := ih (i + 1) (some (distSq pixel c)) i (Nat.lt_succ_self i)
      simp only [List.length_cons]
      omega
    · have := ih (i + 1) best minIdx (Nat.lt_succ_of_lt h)
      simp only [List.length_cons]
      omega

/-- Full characterization of the `findNearestColor` loop from a state
with a finite incumbent `best` at index `minIdx`: either no later
distance beats `best` and `minIdx` is returned, or the returned index is
the first position (offset `k` from `i`) attaining the minimum distance,
that distance beats `best`, and every strictly earlier position in the
remaining list has strictly larger distance. -/
theorem findNearestGo_spec (pixel : Color) :
    ∀ (rest : List Color) (i best minIdx : ℕ),
      (findNearestGo pixel rest i (some best) minIdx = minIdx ∧
        ∀ k, k < rest.length → best ≤ distSq pixel (rest.getD k default))
      ∨ (∃ k, k < rest.length ∧
          findNearestGo pixel rest i (some best) minIdx = i + k ∧
          distSq pixel (rest.getD k default) < best ∧
          (∀ j, j < rest.length →
            distSq pixel (rest.getD k default) ≤ distSq pixel (rest.getD j default)) ∧
          (∀ j, j < k →
            distSq pixel (rest.getD k default) < distSq pixel (rest.getD j default))) := by
  intro rest
  induction rest with
  | nil =>
    intro i best minIdx
    left
    exact ⟨rfl, by intro k hk; simp at hk⟩
  | cons c rest ih =>
    intro i best minIdx
    by_cases hlt : distSq pixel c < best
    · rw [findNearestGo, if_pos (by simpa [ltOpt] using hlt)]
      rcases ih (i + 1) (distSq pixel c) i with ⟨heq, hall⟩ | ⟨k, hk, heq, hbf, hmin, hstrict⟩
      · right
        refine ⟨0, by simp, by simpa using heq, by simpa using hlt, ?_, ?_⟩
        · intro j hj
          cases j with
          | zero => simp
          | succ j =>
            simp only [List.getD_cons_zero, List.getD_cons_succ]
            exact hall j (by simpa using hj)
        · intro j hj
          omega
      · right
        refine ⟨k + 1, by simpa using hk, ?_, ?_, ?_, ?_⟩
        · rw [heq]; omega
        · simp only [List.getD_cons_succ]
          exact hbf.trans hlt
        · intro j hj
          cases j with
          | zero =>
            simp only [List.getD_cons_succ, List.getD_cons_zero]
            exact le_of_lt hbf
          | succ j =>
            simp only [List.getD_cons_succ]
            exact hmin j (by simpa using hj)
        · intro j hj
          cases j with
          | zero =>
            simp only [List.getD_cons_succ, List.getD_cons_zero]
            exact hbf
          | succ j =>
            simp only [List.getD_cons_succ]
            exact hstrict j (by omega)
    · rw [findNearestGo, if_neg (by simpa [ltOpt] using hlt)]
      rcases ih (i + 1) best minIdx with ⟨heq, hall⟩ | ⟨k, hk, heq, hbf, hmin, hstrict⟩
      · left
        refine ⟨heq, ?_⟩
        intro k hk
        cases k with
        | zero => simpa using Nat.le_of_not_lt hlt
        | succ k =>
          simp only [List.getD_cons_succ]
          exact hall k (by simpa using hk)
      · right
        refine ⟨k + 1, by simpa using hk, ?_, ?_, ?_, ?_⟩
        · rw [heq]; omega
        · simp only [List.getD_cons_succ]
          exact hbf
        · intro j hj
          cases j with
          | zero =>
            simp only [List.getD_cons_succ, List.getD_cons_zero]
            exact le_of_lt (lt_of_lt_of_le hbf (Nat.le_of_not_lt hlt))
          | succ j =>
            simp only [List.getD_cons_succ]
            exact hmin j (by simpa using hj)
        · intro j hj
          cases j with
          | zero =>
            simp only [List.getD_cons_succ, List.getD_cons_zero]
            exact lt_of_lt_of_le hbf (Nat.le_of_not_lt hlt)
          | succ j =>
            simp only [List.getD_cons_succ]
            exact hstrict j (by omega)

/-- On a non-empty palette the returned index is in range. -/
theorem findNearestColor_lt (pixel : Color) (palette : List Color) (h : palette ≠ []) :
    findNearestColor pixel palette < palette.length := by
  match palette, h with
  | c :: rest, _ =>
    show findNearestGo pixel (c :: rest) 0 none 0 < (c :: rest).length
    rw [findNearestGo, if_pos (by simp [ltOpt])]
    have := findNearestGo_lt pixel rest (0 + 1) (some (distSq pixel c)) 0 Nat.zero_lt_one
    simp only [List.length_cons]
    omega

/-- Combined argmin characterization on a non-empty palette: the index is
in range, its squared distance is minimal, and every strictly smaller
index has strictly larger squared distance (stable lowest-index win). -/
theorem findNearestColor_cons (pixel c : Color) (rest : List Color) :
    findNearestColor pixel (c :: rest) < (c :: rest).length ∧
    (∀ k, k < (c :: rest).length →
      distSq pixel ((c :: rest).getD (findNearestColor pixel (c :: rest)) default) ≤
        distSq pixel ((c :: rest).getD k default)) ∧
    (∀ k, k < findNearestColor pixel (c :: rest) →
      distSq pixel ((c :: rest).getD (findNearestColor pixel (c :: rest)) default) <
        distSq pixel ((c :: rest).getD k default)) := by
  have hbound := findNearestColor_lt pixel (c :: rest) (by simp)
  have hunfold : findNearestColor pixel (c :: rest)
      = findNearestGo pixel rest 1 (some (distSq pixel c)) 0 := by
    show findNearestGo pixel (c :: rest) 0 none 0 = _
    rw [findNearestGo, if_pos (by simp [ltOpt])]
  rcases findNearestGo_spec pixel rest 1 (distSq pixel c) 0 with
    ⟨heq, hall⟩ | ⟨k, hk, heq, hbf, hmin, hstrict⟩
  · have hidx : findNearestColor pixel (c :: rest) = 0 := by rw [hunfold, heq]
    refine ⟨hbound, ?_, ?_⟩
    · intro j hj
      rw [hidx]
      cases j with
      | zero => exact le_refl _
      | succ j =>
        simp only [List.getD_cons_zero, List.getD_cons_succ]
        exact hall j (by simpa using hj)
    · intro j hj
      rw [hidx] at hj
      omega
  · have hidx : findNearestColor pixel (c :: rest) = k + 1 := by rw [hunfold, heq]; omega
    refine ⟨hbound, ?_, ?_⟩
    · intro j hj
      rw [hidx]
      simp only [List.getD_cons_succ]
      cases j with
      | zero =>
        simp only [List.getD_cons_zero]
        exact le_of_lt hbf
      | succ j =>
        simp only [List.getD_cons_succ]
        exact hmin j (by simpa using hj)
    · intro j hj
      rw [hidx] at hj
      rw [hidx]
      simp only [List.getD_cons_succ]
      cases j with
      | zero =>
        simp only [List.getD_cons_zero]
        exact hbf
      | succ j =>
        simp only [List.getD_cons_succ]
        exact hstrict j (by omega)

/-- The cluster-assignment pass of one `quantizeColors` iteration:
`Array.from({length: numColors}, () => [])`, then
`clusters[findNearestColor(pixel, centroids)].push(pixel)` for each
sampled pixel in order. -/
def assignClusters (sampled centroids : List Color) (numColors : ℕ) : List (List Color) :=
  sampled.foldl
    (fun clusters pixel =>
      clusters.set (findNearestColor pixel centroids)
        (clusters.getD (findNearestColor pixel centroids) [] ++ [pixel]))
    (List.replicate numColors [])

/-- Per-channel sums of a cluster: the `cluster.reduce((acc, p) =>
[acc[0]+p[0], acc[1]+p[1], acc[2]+p[2]], [0,0,0])` accumulator. -/
def clusterSum (cluster : List Color) : ℕ × ℕ × ℕ :=
  cluster.foldl (fun acc p => (acc.1 + p.r, acc.2.1 + p.g, acc.2.2 + p.b))
    ((0, 0, 0) : ℕ × ℕ × ℕ)

/-- `Math.round(sum/cluster.length)` per channel.  Mathlib's `round` on
`ℚ` is `⌊x + 1/2⌋`, which is exactly JavaScript's `Math.round`. -/
def meanColor (cluster : List Color) : Color :=
  { r := (round (((clusterSum cluster).1 : ℚ) / (cluster.length : ℚ))).toNat
    g := (round (((clusterSum cluster).2.1 : ℚ) / (cluster.length : ℚ))).toNat
    b := (round (((clusterSum cluster).2.2 : ℚ) / (cluster.length : ℚ))).toNat }

/-- The centroid-update pass, `clusters.map((cluster, i) => ...)`: an
empty cluster keeps `centroids[i]`, any other becomes the rounded
per-channel mean of its pixels (`i` counts from the `ofs` argument). -/
def updateCentroids (centroids : List Color) : List (List Color) → ℕ → List Color
  | [], _ => []
  | cluster :: rest, i =>
    (if cluster.length = 0 then centroids.getD i default else meanColor cluster)
      :: updateCentroids centroids rest (i + 1)

/-- The stride subsample of `quantizeColors`:
`pixels.filter((_, i) => i % step === 0)` with
`step = Math.floor(pixels.length / Math.min(10000, pixels.length))`. -/
def sampleStride (pixels : List Color) : List Color :=
  let sampleSize := min 10000 pixels.length
  let step := pixels.length / sampleSize
  (pixels.enum.filter (fun p => p.1 % step == 0)).map (fun p => p.2)

/-- `quantizeColors`: seed `numColors` centroids from the subsample at
the externally drawn indices `rand 0, rand 1, ...` (the source draws
`sampled[Math.floor(Math.random() * sampled.length)]`, an in-range index
whenever the subsample is non-empty), then run 10 assignment/update
iterations. -/
def quantizeColors (pixels : List Color) (numColors : ℕ) (rand : ℕ → ℕ) : List Color :=
  let sampled := sampleStride pixels
  let centroids0 := (List.range numColors).map (fun i => sampled.getD (rand i) default)
  (List.range 10).foldl
    (fun centroids _ =>
      updateCentroids centroids (assignClusters sampled centroids numColors) 0)
    centroids0

/-- Lowercase two-digit hex of one channel:
`x.toString(16).padStart(2, '0')` (`Nat.toDigits 16` produces the same
lowercase base-16 digits as JavaScript's `toString(16)` on naturals). -/
def toHexByte (n : ℕ) : List Char :=
  List.replicate (2 - (Nat.toDigits 16 n).length) '0' ++ Nat.toDigits 16 n

/-- `'#' + [r, g, b].map(x => x.toString(16).padStart(2, '0')).join('')`. -/
def rgbToHex (r g b : ℕ) : String :=
  "#" ++ ⟨toHexByte r⟩ ++ ⟨toHexByte g⟩ ++ ⟨toHexByte b⟩

/-- Hex string of a palette entry, as built inline in
`photoToPaintByNumbers` of the sharp-based processor. -/
def colorToHex (c : Color) : String :=
  rgbToHex c.r c.g c.b

/-- Step 5 of `photoToPaintByNumbers` (sharp-based): remap every pixel of
the full-resolution image to `palette[findNearestColor(pixel, palette)]`. -/
def remapPixels (pixels palette : List Color) : List Color :=
  pixels.map (fun p => palette.getD (findNearestColor p palette) default)

/-- The pixel-level core of `photoToPaintByNumbers` (sharp-based): the
quantized palette, the remapped full-resolution bitmap, and the hex
palette returned to the caller. -/
def photoToPaintByNumbersCore (pixels : List Color) (numColors : ℕ) (rand : ℕ → ℕ) :
    List Color × List String :=
  let palette := quantizeColors pixels numColors rand
  (remapPixels pixels palette, palette.map colorToHex)

theorem assignClusters_length (sampled centroids : List Color) (numColors : ℕ) :
    (assignClusters sampled centroids numColors).length = numColors := by
  unfold assignClusters
  have h : ∀ (l : List Color) (acc : List (List Color)),
      (l.foldl (fun clusters pixel =>
        clusters.set (findNearestColor pixel centroids)
          (clusters.getD (findNearestColor pixel centroids) [] ++ [pixel])) acc).length
        = acc.length := by
    intro l
    induction l with
    | nil => intro acc; rfl
    | cons p l ih =>
      intro acc
      rw [List.foldl_cons, ih]
      simp
  simpa using h sampled (List.replicate numColors [])

theorem updateCentroids_length (centroids : List Color) :
    ∀ (clusters : List (List Color)) (ofs : ℕ),
      (updateCentroids centroids clusters ofs).length = clusters.length := by
  intro clusters
  induction clusters with
  | nil => intro ofs; rfl
  | cons cluster rest ih => intro ofs; simp [updateCentroids, ih]

theorem quantizeColors_length (pixels : List Color) (numColors : ℕ) (rand : ℕ → ℕ) :
    (quantizeColors pixels numColors rand).length = numColors := by
  unfold quantizeColors
  have h : ∀ (l : List ℕ) (cs : List Color), cs.length = numColors →
      ((l.foldl (fun centroids _ =>
        updateCentroids centroids
          (assignClusters (sampleStride pixels) centroids numColors) 0) cs)).length
        = numColors := by
    intro l
    induction l with
    | nil => intro cs h; simpa using h
    | cons a l ih =>
      intro cs h
      exact ih _ (by simp [updateCentroids_length, assignClusters_length])
  exact h _ _ (by simp)

/-- The cluster at index `i` after the assignment pass is exactly the
sublist of sampled pixels whose nearest centroid is `i`, in order. -/
theorem assignClusters_getD (sampled centroids : List Color) (numColors : ℕ)
    (i : ℕ) (hi : i < numColors) :
    (assignClusters sampled centroids numColors).getD i [] =
      sampled.filter (fun p => findNearestColor p centroids == i) := by
  unfold assignClusters
  have h : ∀ (l : List Color) (acc : List (List Color)), acc.length = numColors →
      (l.foldl (fun clusters pixel =>
        clusters.set (findNearestColor pixel centroids)
          (clusters.getD (findNearestColor pixel centroids) [] ++ [pixel])) acc).getD i []
        = acc.getD i [] ++ l.filter (fun p => findNearestColor p centroids == i) := by
    intro l
    induction l with
    | nil => intro acc hacc; simp
    | cons p l ih =>
      intro acc hacc
      by_cases hp : findNearestColor p centroids = i
      · have hset : (acc.set (findNearestColor p centroids)
            (acc.getD (findNearestColor p centroids) [] ++ [p])).getD i []
            = acc.getD i [] ++ [p] := by
          subst hp
          simp only [List.getD_eq_getElem?_getD]
          rw [List.getElem?_set_self (by omega)]
          simp [List.getD_eq_getElem?_getD]
        rw [List.foldl_cons, ih _ (by simp [hacc]), hset]
        simp [hp, List.filter_cons]
      · have hset : (acc.set (findNearestColor p centroids)
            (acc.getD (findNearestColor p centroids) [] ++ [p])).getD i []
            = acc.getD i [] := by
          simp only [List.getD_eq_getElem?_getD]
          rw [List.getElem?_set_ne hp]
        rw [List.foldl_cons, ih _ (by simp [hacc]), hset]
        simp [hp, List.filter_cons]
  rw [h sampled (List.replicate numColors []) (by simp)]
  simp

theorem updateCentroids_getD (centroids : List Color) :
    ∀ (clusters : List (List Color)) (ofs i : ℕ), i < clusters.length →
      (updateCentroids centroids clusters ofs).getD i default =
        (if (clusters.getD i []).length = 0 then centroids.getD (ofs + i) default
         else meanColor (clusters.getD i [])) := by
  intro clusters
  induction clusters with
  | nil => intro ofs i hi; simp at hi
  | cons cluster rest ih =>
    intro ofs i hi
    cases i with
    | zero => simp [updateCentroids]
    | succ i =>
      simp only [updateCentroids, List.getD_cons_succ]
      rw [ih (ofs + 1) i (by simpa using hi)]
      have harith : ofs + 1 + i = ofs + (i + 1) := by omega
      rw [harith]

theorem clusterSum_eq (cluster : List Color) :
    clusterSum cluster =
      ((cluster.map Color.r).sum, (cluster.map Color.g).sum, (cluster.map Color.b).sum) := by
  unfold clusterSum
  have h : ∀ (l : List Color) (a b c : ℕ),
      l.foldl (fun acc p => (acc.1 + p.r, acc.2.1 + p.g, acc.2.2 + p.b)) ((a, b, c) : ℕ × ℕ × ℕ)
        = (a + (l.map Color.r).sum, b + (l.map Color.g).sum, c + (l.map Color.b).sum) := by
    intro l
    induction l with
    | nil => intro a b c; simp
    | cons p l ih =>
      intro a b c
      simp [ih, Nat.add_assoc]
  simpa using h cluster 0 0 0

theorem getD_mem_of_lt {α : Type} (l : List α) (i : ℕ) (d : α) (h : i < l.length) :
    l.getD i d ∈ l := by
  rw [List.getD_eq_getElem l d h]
  exact List.getElem_mem h

/-- C5: in one quantizer iteration, a centroid with no assigned sampled
pixels keeps exactly its previous value, and a centroid with at least one
assigned pixel becomes the per-channel `Math.round`ed arithmetic mean of
its assigned pixels. -/
theorem centroid_update_spec (sampled centroids : List Color) (numColors i : ℕ)
    (_hK : centroids.length = numColors) (i_lt : i < numColors) :
    (sampled.filter (fun p => findNearestColor p centroids == i) = [] →
      (updateCentroids centroids (assignClusters sampled centroids numColors) 0).getD i default
        = centroids.getD i default) ∧
    (sampled.filter (fun p => findNearestColor p centroids == i) ≠ [] →
      (updateCentroids centroids (assignClusters sampled centroids numColors) 0).getD i default
        = { r := (round ((((sampled.filter (fun p => findNearestColor p centroids == i)).map
                Color.r).sum : ℚ)
              / ((sampled.filter (fun p => findNearestColor p centroids == i)).length : ℚ))).toNat
            g := (round ((((sampled.filter (fun p => findNearestColor p centroids == i)).map
                Color.g).sum : ℚ)
              / ((sampled.filter (fun p => findNearestColor p centroids == i)).length : ℚ))).toNat
            b := (round ((((sampled.filter (fun p => findNearestColor p centroids == i)).map
                Color.b).sum : ℚ)
              / ((sampled.filter (fun p => findNearestColor p centroids == i)).length : ℚ))).toNat }) := by
  have hclusters := assignClusters_getD sampled centroids numColors i i_lt
  have hlen : i < (assignClusters sampled centroids numColors).length := by
    rw [assignClusters_length]; exact i_lt
  have hupd := updateCentroids_getD centroids (assignClusters sampled centroids numColors) 0 i hlen
  rw [hclusters] at hupd
  constructor
  · intro hfil
    rw [hupd, hfil]
    simp
  · intro hfil
    rw [hupd, if_neg (by simpa [List.length_eq_zero] using hfil)]
    simp [meanColor, clusterSum_eq]

/-- C5 witness: two sampled pixels both assigned to centroid 0; it
becomes the rounded mean; the statement also exercises the hypotheses. -/
theorem centroid_update_spec_witness :
    ([(⟨0, 0, 0⟩ : Color), ⟨10, 0, 0⟩].filter
        (fun p => findNearestColor p [(⟨0, 0, 0⟩ : Color), ⟨200, 0, 0⟩] == 0) ≠ []) ∧
    (updateCentroids [(⟨0, 0, 0⟩ : Color), ⟨200, 0, 0⟩]
        (assignClusters [(⟨0, 0, 0⟩ : Color), ⟨10, 0, 0⟩]
          [(⟨0, 0, 0⟩ : Color), ⟨200, 0, 0⟩] 2) 0).getD 0 default
      = ⟨5, 0, 0⟩ := by
  have h := (centroid_update_spec [(⟨0, 0, 0⟩ : Color), ⟨10, 0, 0⟩]
    [(⟨0, 0, 0⟩ : Color), ⟨200, 0, 0⟩] 2 0 (by decide) (by decide)).2 (by decide)
  refine ⟨by decide, ?_⟩
  rw [h]
  norm_num [findNearestColor, findNearestGo, ltOpt, distSq]
  decide

/-- The squared distance, cast to `ℝ`, is the sum of squared per-channel
differences: the radicand of the source's `Math.sqrt`. -/
theorem distSq_cast (p q : Color) :
    ((distSq p q : ℕ) : ℝ)
      = ((p.r : ℝ) - q.r) ^ 2 + ((p.g : ℝ) - q.g) ^ 2 + ((p.b : ℝ) - q.b) ^ 2 := by
  have hnn : (0 : ℤ) ≤ ((p.r : ℤ) - q.r) ^ 2 + ((p.g : ℤ) - q.g) ^ 2 + ((p.b : ℤ) - q.b) ^ 2 := by
    positivity
  have h : ((distSq p q : ℕ) : ℤ)
      = ((p.r : ℤ) - q.r) ^ 2 + ((p.g : ℤ) - q.g) ^ 2 + ((p.b : ℤ) - q.b) ^ 2 := by
    unfold distSq
    exact Int.toNat_of_nonneg hnn
  calc ((distSq p q : ℕ) : ℝ) = (((distSq p q : ℕ) : ℤ) : ℝ) := by push_cast; ring
    _ = _ := by rw [h]; push_cast; ring

/-- C4: nearest-color assignment minimizes the Euclidean RGB distance
`sqrt((r1-r2)² + (g1-g2)² + (b1-b2)²)` (no alpha participates), and the
lowest index among the minimizers is returned: every strictly earlier
candidate is at strictly larger distance. -/
theorem findNearestColor_min_euclidean (pixel : Color) (palette : List Color)
    (h : palette ≠ []) :
    (∀ q : Color, ((distSq pixel q : ℕ) : ℝ)
        = ((pixel.r : ℝ) - q.r) ^ 2 + ((pixel.g : ℝ) - q.g) ^ 2 + ((pixel.b : ℝ) - q.b) ^ 2) ∧
    findNearestColor pixel palette < palette.length ∧
    (∀ k, k < palette.length →
      Real.sqrt (distSq pixel (palette.getD (findNearestColor pixel palette) default)) ≤
        Real.sqrt (distSq pixel (palette.getD k default))) ∧
    (∀ k, k < findNearestColor pixel palette →
      Real.sqrt (distSq pixel (palette.getD (findNearestColor pixel palette) default)) <
        Real.sqrt (distSq pixel (palette.getD k default))) := by
  match palette, h with
  | c :: rest, _ =>
    obtain ⟨hlt, hmin, hstrict⟩ := findNearestColor_cons pixel c rest
    refine ⟨fun q => distSq_cast pixel q, hlt, ?_, ?_⟩
    · intro k hk
      exact Real.sqrt_le_sqrt (by exact_mod_cast hmin k hk)
    · intro k hk
      exact Real.sqrt_lt_sqrt (by positivity) (by exact_mod_cast hstrict k hk)

/-- C4 witness: a concrete pixel and palette with a tie between indices 0
and 2; index 0 wins. -/
theorem findNearestColor_min_euclidean_witness :
    ([(⟨1, 1, 1⟩ : Color), ⟨5, 5, 5⟩, ⟨1, 1, 1⟩] ≠ ([] : List Color)) ∧
    findNearestColor ⟨0, 0, 0⟩ [(⟨1, 1, 1⟩ : Color), ⟨5, 5, 5⟩, ⟨1, 1, 1⟩] = 0 ∧
    (∀ k, k < ([(⟨1, 1, 1⟩ : Color), ⟨5, 5, 5⟩, ⟨1, 1, 1⟩] : List Color).length →
      Real.sqrt (distSq ⟨0, 0, 0⟩
          (([(⟨1, 1, 1⟩ : Color), ⟨5, 5, 5⟩, ⟨1, 1, 1⟩]).getD
            (findNearestColor ⟨0, 0, 0⟩ [(⟨1, 1, 1⟩ : Color), ⟨5, 5, 5⟩, ⟨1, 1, 1⟩]) default)) ≤
        Real.sqrt (distSq ⟨0, 0, 0⟩
          (([(⟨1, 1, 1⟩ : Color), ⟨5, 5, 5⟩, ⟨1, 1, 1⟩]).getD k default))) :=
  ⟨by decide, by decide,
    (findNearestColor_min_euclidean ⟨0, 0, 0⟩
      [(⟨1, 1, 1⟩ : Color), ⟨5, 5, 5⟩, ⟨1, 1, 1⟩] (by decide)).2.2.1⟩

/-- C7: for every pixel list and every requested `numColors ≥ 1`, the
quantizer's centroid list and the hex palette returned by
`photoToPaintByNumbers` both have length exactly `numColors`. -/
theorem palette_length_eq (pixels : List Color) (numColors : ℕ) (rand : ℕ → ℕ)
    (_hK : 1 ≤ numColors) :
    (quantizeColors pixels numColors rand).length = numColors ∧
    ((photoToPaintByNumbersCore pixels numColors rand).2).length = numColors :=
  ⟨quantizeColors_length pixels numColors rand, by
    simp [photoToPaintByNumbersCore, quantizeColors_length]⟩

/-- C7 witness. -/
theorem palette_length_eq_witness :
    1 ≤ 1 ∧ ((photoToPaintByNumbersCore [(⟨1, 2, 3⟩ : Color)] 1 (fun _ => 0)).2).length = 1 :=
  ⟨by decide, (palette_length_eq [(⟨1, 2, 3⟩ : Color)] 1 (fun _ => 0) (by decide)).2⟩

/-- C1: every pixel of the remapped full-resolution output is exactly one
of the centroid colors of the returned palette, and its hex form is one
of the returned hex palette entries. -/
theorem remap_pixels_in_palette (pixels : List Color) (numColors : ℕ) (rand : ℕ → ℕ)
    (hK : 1 ≤ numColors) :
    ∀ c ∈ (photoToPaintByNumbersCore pixels numColors rand).1,
      c ∈ quantizeColors pixels numColors rand ∧
        colorToHex c ∈ (photoToPaintByNumbersCore pixels numColors rand).2 := by
  intro c hc
  have hpal : quantizeColors pixels numColors rand ≠ [] := by
    intro hnil
    have hlen := quantizeColors_length pixels numColors rand
    rw [hnil] at hlen
    simp at hlen
    omega
  simp only [photoToPaintByNumbersCore, remapPixels, List.mem_map] at hc
  obtain ⟨p, hp, rfl⟩ := hc
  have hidx := findNearestColor_lt p (quantizeColors pixels numColors rand) hpal
  have hmem := getD_mem_of_lt (quantizeColors pixels numColors rand)
    (findNearestColor p (quantizeColors pixels numColors rand)) default hidx
  exact ⟨hmem, by
    simp only [photoToPaintByNumbersCore]
    exact List.mem_map_of_mem colorToHex hmem⟩

/-- C1 witness. -/
theorem remap_pixels_in_palette_witness :
    1 ≤ 1 ∧
    ∀ c ∈ (photoToPaintByNumbersCore [(⟨1, 2, 3⟩ : Color)] 1 (fun _ => 0)).1,
      c ∈ quantizeColors [(⟨1, 2, 3⟩ : Color)] 1 (fun _ => 0) ∧
        colorToHex c ∈ (photoToPaintByNumbersCore [(⟨1, 2, 3⟩ : Color)] 1 (fun _ => 0)).2 :=
  ⟨by decide, remap_pixels_in_palette [(⟨1, 2, 3⟩ : Color)] 1 (fun _ => 0) (by decide)⟩

/-- The horizontal Sobel kernel of `sobelEdgeDetection`. -/
def sobelX : List ℤ := [-1, 0, 1, -2, 0, 2, -1, 0, 1]

/-- The vertical Sobel kernel of `sobelEdgeDetection`. -/
def sobelY : List ℤ := [-1, -2, -1, 0, 0, 0, 1, 2, 1]

/-- One kernel accumulation at pixel `(x, y)`:
`gray * kernel[(ky+1)*3 + (kx+1)]` summed over the 3×3 neighborhood,
reading channel 0 of the flat RGBA grayscale array at index
`((y+ky)*width + (x+kx)) * 4`.  The loop variables are shifted to
`ky', kx' ∈ {0, 1, 2}` standing for `ky+1, kx+1`. -/
def gradAt (kernel : List ℤ) (data : ℕ → ℕ) (width x y : ℕ) : ℤ :=
  (List.range 3).foldl
    (fun acc ky =>
      (List.range 3).foldl
        (fun acc2 kx =>
          acc2 + (data (((y + ky - 1) * width + (x + kx - 1)) * 4) : ℤ)
            * kernel.getD (ky * 3 + kx) 0)
        acc)
    0

/-- The thresholded, amplified edge value stored into the `Uint8Array`:
the source computes `magnitude = Math.sqrt(gx*gx + gy*gy)` and stores
`magnitude > 30 ? Math.min(255, magnitude * 3) : 0`, which the typed
array truncates to an integer on store.  With `s = gx² + gy²` a natural
number, `magnitude > 30 ↔ s > 900`, and
`⌊min 255 (3·√s)⌋ = min 255 (Nat.sqrt (9·s))`, the executable form used
here; the claim-level theorem establishes the `Real.sqrt`
characterization. -/
def sobelEdgeAt (data : ℕ → ℕ) (width x y : ℕ) : ℕ :=
  let gx := gradAt sobelX data width x y
  let gy := gradAt sobelY data width x y
  let s := (gx * gx + gy * gy).toNat
  if 900 < s then min 255 (Nat.sqrt (9 * s)) else 0

/-- The full `sobelEdgeDetection` output at `(x, y)`: the `Uint8Array`
is zero-initialized and only interior pixels (`1 ≤ x < width-1`,
`1 ≤ y < height-1`) are written. -/
def sobelOutput (data : ℕ → ℕ) (width height x y : ℕ) : ℕ :=
  if 1 ≤ x ∧ x + 1 < width ∧ 1 ≤ y ∧ y + 1 < height then
    sobelEdgeAt data width x y
  else 0

/-- The inversion step of `processImageToColoringPage`:
`val = 255 - edgeData[i]`, replicated into the R, G and B channels of
the output image. -/
def invertedOutputAt (data : ℕ → ℕ) (width height x y : ℕ) : ℕ :=
  255 - sobelOutput data width height x y

/-- C3 (amended): at every interior pixel, with
`magnitude = √(gx² + gy²)` computed from the Sobel kernels, the stored
edge value is `0` when `magnitude ≤ 30`, and is
`⌊min 255 (magnitude * 3)⌋` — the typed array truncates the stored
number to an integer — when `magnitude > 30`; the inverted output pixel
is `255` minus that edge value. -/
theorem sobel_edge_floor_formula (data : ℕ → ℕ) (width height x y : ℕ) (s : ℕ)
    (hx1 : 1 ≤ x) (hx2 : x + 1 < width) (hy1 : 1 ≤ y) (hy2 : y + 1 < height)
    (hs : s = ((gradAt sobelX data width x y) * (gradAt sobelX data width x y)
        + (gradAt sobelY data width x y) * (gradAt sobelY data width x y)).toNat) :
    (Real.sqrt (s : ℝ) ≤ 30 → sobelOutput data width height x y = 0) ∧
    (30 < Real.sqrt (s : ℝ) →
      sobelOutput data width height x y = ⌊min 255 (Real.sqrt (s : ℝ) * 3)⌋₊) ∧
    invertedOutputAt data width height x y = 255 - sobelOutput data width height x y := by
  have hout : sobelOutput data width height x y
      = if 900 < s then min 255 (Nat.sqrt (9 * s)) else 0 := by
    rw [sobelOutput, if_pos ⟨hx1, hx2, hy1, hy2⟩, sobelEdgeAt, hs]
  refine ⟨?_, ?_, rfl⟩
  · intro hle
    have h900 : (s : ℝ) ≤ 900 := by
      have := (Real.sqrt_le_left (x := (s : ℝ)) (by norm_num : (0:ℝ) ≤ 30)).mp hle
      norm_num at this
      exact_mod_cast this
    have hsn : s ≤ 900 := by exact_mod_cast h900
    rw [hout, if_neg (by omega)]
  · intro hlt
    have hsn : 900 < s := by
      have := (Real.lt_sqrt (y := (s : ℝ)) (by norm_num : (0:ℝ) ≤ 30)).mp hlt
      norm_num at this
      exact_mod_cast this
    rw [hout, if_pos hsn]
    have hsqrt9 : Real.sqrt (s : ℝ) * 3 = Real.sqrt ((9 * s : ℕ) : ℝ) := by
      push_cast
      rw [Real.sqrt_mul (by norm_num : (0:ℝ) ≤ 9)]
      rw [show (9 : ℝ) = 3 ^ 2 by norm_num, Real.sqrt_sq (by norm_num : (0:ℝ) ≤ 3)]
      ring
    rw [hsqrt9]
    by_cases hbig : 9 * s ≤ 65025
    · have hle255 : Real.sqrt ((9 * s : ℕ) : ℝ) ≤ 255 := by
        rw [Real.sqrt_le_left (by norm_num : (0:ℝ) ≤ 255)]
        norm_num
        exact_mod_cast hbig
      have hnatle : Nat.sqrt (9 * s) ≤ 255 := by
        calc Nat.sqrt (9 * s) ≤ Nat.sqrt 65025 := Nat.sqrt_le_sqrt hbig
          _ = 255 := by
            rw [show (65025 : ℕ) = 255 * 255 by norm_num]
            exact Nat.sqrt_eq 255
      rw [min_eq_right hle255, min_eq_right hnatle]
      exact (Real.nat_floor_real_sqrt_eq_nat_sqrt).symm
    · have hge : (255 : ℝ) ≤ Real.sqrt ((9 * s : ℕ) : ℝ) := by
        rw [Real.le_sqrt (by norm_num : (0:ℝ) ≤ 255) (by positivity)]
        have h65 : (65025 : ℝ) < ((9 * s : ℕ) : ℝ) := by
          exact_mod_cast Nat.lt_of_not_le hbig
        nlinarith [h65]
      have hnatge : 255 ≤ Nat.sqrt (9 * s) := by
        rw [Nat.le_sqrt]
        omega
      rw [min_eq_left hge, min_eq_left hnatge]
      norm_num

/-- A concrete 3×3 grayscale bitmap (flat RGBA indexing): pixel (2,1)
has gray value 15, pixel (1,2) has gray value 1, all others 0.  At the
interior pixel (1,1) it yields `gx = 30`, `gy = 2`, `s = 904`. -/
def cexSobelData : ℕ → ℕ := fun i => if i = 20 then 15 else if i = 28 then 1 else 0

/-- C3 counterexample: at the interior pixel (1,1) of `cexSobelData`
(width = height = 3) the magnitude `√904` exceeds the threshold 30, but
the stored edge value is the integer 90, which is not equal to the exact
`min(255, magnitude * 3) = √8136` of the claim, an irrational number. -/
theorem sobel_edge_not_exact_min :
    30 < Real.sqrt ((((gradAt sobelX cexSobelData 3 1 1) * (gradAt sobelX cexSobelData 3 1 1)
        + (gradAt sobelY cexSobelData 3 1 1) * (gradAt sobelY cexSobelData 3 1 1)).toNat : ℕ)) ∧
    ((sobelOutput cexSobelData 3 3 1 1 : ℕ) : ℝ)
      ≠ min 255 (Real.sqrt ((((gradAt sobelX cexSobelData 3 1 1)
            * (gradAt sobelX cexSobelData 3 1 1)
          + (gradAt sobelY cexSobelData 3 1 1)
            * (gradAt sobelY cexSobelData 3 1 1)).toNat : ℕ)) * 3) := by
  have hgx : gradAt sobelX cexSobelData 3 1 1 = 30 := by decide
  have hgy : gradAt sobelY cexSobelData 3 1 1 = 2 := by decide
  have hs : ((gradAt sobelX cexSobelData 3 1 1) * (gradAt sobelX cexSobelData 3 1 1)
      + (gradAt sobelY cexSobelData 3 1 1) * (gradAt sobelY cexSobelData 3 1 1)).toNat
      = 904 := by
    rw [hgx, hgy]
    decide
  have hsq : Nat.sqrt (9 * Int.toNat 904) = 90 := by
    rw [show (9 * Int.toNat 904 : ℕ) = 8136 from by decide]
    norm_num
  have hout : sobelOutput cexSobelData 3 3 1 1 = 90 := by
    rw [sobelOutput, if_pos (by norm_num)]
    simp only [sobelEdgeAt, hgx, hgy]
    norm_num [hsq]
  rw [hs, hout]
  have h3 : Real.sqrt ((904 : ℕ) : ℝ) * 3 = Real.sqrt 8136 := by
    rw [show ((904 : ℕ) : ℝ) = 904 by norm_num]
    rw [show (8136 : ℝ) = 9 * 904 by norm_num, Real.sqrt_mul (by norm_num : (0:ℝ) ≤ 9) 904,
        show (9 : ℝ) = 3 ^ 2 by norm_num, Real.sqrt_sq (by norm_num : (0:ℝ) ≤ 3)]
    ring
  constructor
  · rw [show ((904 : ℕ) : ℝ) = 904 by norm_num]
    rw [Real.lt_sqrt (by norm_num : (0:ℝ) ≤ 30)]
    norm_num
  · rw [h3, min_eq_right (by rw [Real.sqrt_le_left (by norm_num : (0:ℝ) ≤ 255)]; norm_num)]
    intro h
    have h2 : ((90 : ℕ) : ℝ) ^ 2 = 8136 := by
      rw [h, Real.sq_sqrt (by norm_num : (0:ℝ) ≤ 8136)]
    norm_num at h2

/-- C3 witness: the amended theorem applied at the concrete bitmap
`cexSobelData` and interior pixel (1,1), where `s = 904`. -/
theorem sobel_edge_floor_formula_witness :
    (Real.sqrt ((904 : ℕ) : ℝ) ≤ 30 → sobelOutput cexSobelData 3 3 1 1 = 0) ∧
    (30 < Real.sqrt ((904 : ℕ) : ℝ) →
      sobelOutput cexSobelData 3 3 1 1 = ⌊min 255 (Real.sqrt ((904 : ℕ) : ℝ) * 3)⌋₊) ∧
    invertedOutputAt cexSobelData 3 3 1 1 = 255 - sobelOutput cexSobelData 3 3 1 1 :=
  sobel_edge_floor_formula cexSobelData 3 3 1 1 904
    (by decide) (by decide) (by decide) (by decide) (by decide)

/-- An RGBA sample of the canvas `ImageData` array used by
`processImageToColoringPage`. -/
structure RGBA where
  r : ℕ
  g : ℕ
  b : ℕ
  a : ℕ
  deriving DecidableEq, Repr

/-- Round half to even: the rounding JavaScript applies when a number is
stored into a `Uint8ClampedArray` slot. -/
def roundHalfEven (q : ℚ) : ℤ :=
  if q - ⌊q⌋ < 1 / 2 then ⌊q⌋
  else if 1 / 2 < q - ⌊q⌋ then ⌊q⌋ + 1
  else if ⌊q⌋ % 2 = 0 then ⌊q⌋ else ⌊q⌋ + 1

/-- Store into a `Uint8ClampedArray` slot: round to the nearest integer
(ties to even) and clamp to `[0, 255]`. -/
def clampU8 (q : ℚ) : ℕ :=
  min 255 (roundHalfEven q).toNat

/-- The grayscale loop body of `processImageToColoringPage`:
`gray = 0.299 * data[i] + 0.587 * data[i+1] + 0.114 * data[i+2]`,
written back into R, G and B (alpha untouched), with
`Uint8ClampedArray` storage semantics. -/
def grayPixel (p : RGBA) : RGBA :=
  let gray : ℚ := 0.299 * (p.r : ℚ) + 0.587 * (p.g : ℚ) + 0.114 * (p.b : ℚ)
  { r := clampU8 gray, g := clampU8 gray, b := clampU8 gray, a := p.a }

/-- Grayscale conversion of the whole `ImageData` pixel list. -/
def grayscaleImage (data : List RGBA) : List RGBA :=
  data.map grayPixel

theorem clampU8_le (q : ℚ) : clampU8 q ≤ 255 :=
  min_le_left _ _

theorem clampU8_natCast (v : ℕ) (h : v ≤ 255) : clampU8 (v : ℚ) = v := by
  unfold clampU8 roundHalfEven
  have hfl : ⌊(v : ℚ)⌋ = (v : ℤ) := Int.floor_natCast v
  rw [hfl, if_pos (by push_cast; norm_num)]
  rw [Int.toNat_natCast]
  exact min_eq_right h

theorem grayPixel_idem (p : RGBA) : grayPixel (grayPixel p) = grayPixel p := by
  have key : ∀ v : ℕ, v ≤ 255 →
      clampU8 (0.299 * (v : ℚ) + 0.587 * (v : ℚ) + 0.114 * (v : ℚ)) = v := by
    intro v hv
    have hsum : (0.299 * (v : ℚ) + 0.587 * (v : ℚ) + 0.114 * (v : ℚ)) = (v : ℚ) := by
      rw [← add_mul, ← add_mul]
      norm_num
    rw [hsum]
    exact clampU8_natCast v hv
  simp only [grayPixel, RGBA.mk.injEq]
  exact ⟨key _ (clampU8_le _), key _ (clampU8_le _), key _ (clampU8_le _), trivial⟩

/-- C9: grayscale conversion with the ITU luma formula
`gray = 0.299*R + 0.587*G + 0.114*B`, stored as a rounded 8-bit channel
replicated into R, G and B, is idempotent on every bitmap. -/
theorem grayscale_idempotent (data : List RGBA) :
    grayscaleImage (grayscaleImage data) = grayscaleImage data := by
  unfold grayscaleImage
  rw [List.map_map]
  exact List.map_congr_left fun p _ => grayPixel_idem p

/-- Value of one hex digit as JavaScript's `parseInt(·, 16)` reads it. -/
def hexDigitVal (c : Char) : ℕ :=
  if '0' ≤ c ∧ c ≤ '9' then c.toNat - 48
  else if 'a' ≤ c ∧ c ≤ 'f' then c.toNat - 87
  else if 'A' ≤ c ∧ c ≤ 'F' then c.toNat - 55
  else 0

/-- `parseInt` of a two-character hex string (base-16 positional read). -/
def parseHex2 (cs : List Char) : ℕ :=
  cs.foldl (fun acc c => 16 * acc + hexDigitVal c) 0

/-- The swatch-parsing step of `generateBook`:
`parseInt(color.slice(1,3), 16)`, `parseInt(color.slice(3,5), 16)`,
`parseInt(color.slice(5,7), 16)`. -/
def hexToRgbChannels (s : String) : ℕ × ℕ × ℕ :=
  (parseHex2 ((s.toList.drop 1).take 2),
   parseHex2 ((s.toList.drop 3).take 2),
   parseHex2 ((s.toList.drop 5).take 2))

set_option maxRecDepth 10000 in
theorem hexByte_roundtrip :
    ∀ n, n < 256 → parseHex2 (toHexByte n) = n ∧ (toHexByte n).length = 2 := by
  decide

theorem rgbToHex_data (r g b : ℕ) :
    (rgbToHex r g b).toList = ('#' :: toHexByte r) ++ toHexByte g ++ toHexByte b := rfl

/-- C8: parsing the hex string produced by `rgbToHex` back into three
channel values recovers exactly `(r, g, b)` for all channels in
`[0, 255]`. -/
theorem hex_roundtrip (r g b : ℕ) (hr : r ≤ 255) (hg : g ≤ 255) (hb : b ≤ 255) :
    hexToRgbChannels (rgbToHex r g b) = (r, g, b) := by
  obtain ⟨pr, lr⟩ := hexByte_roundtrip r (by omega)
  obtain ⟨pg, lg⟩ := hexByte_roundtrip g (by omega)
  obtain ⟨pb, lb⟩ := hexByte_roundtrip b (by omega)
  obtain ⟨a1, a2, ha⟩ := List.length_eq_two.mp lr
  obtain ⟨b1, b2, hbb⟩ := List.length_eq_two.mp lg
  obtain ⟨c1, c2, hc⟩ := List.length_eq_two.mp lb
  rw [ha] at pr
  rw [hbb] at pg
  rw [hc] at pb
  simp only [hexToRgbChannels, rgbToHex_data, ha, hbb, hc]
  simp only [List.cons_append, List.nil_append, List.drop_succ_cons, List.drop_zero,
    List.take_succ_cons, List.take_zero]
  rw [pr, pg, pb]

/-- Channel extraction and hex key of a Jimp 32-bit RGBA pixel integer,
as in `extractPalette`: `(color >> 24) & 0xFF` etc. (for values below
`2^32`, JavaScript's signed shift plus mask agrees with the unsigned
shift used here). -/
def pixelHex (c : ℕ) : String :=
  rgbToHex ((c >>> 24) &&& 255) ((c >>> 16) &&& 255) ((c >>> 8) &&& 255)

/-- The sampling stride of `extractPalette`:
`Math.max(1, Math.floor(Math.sqrt((width * height) / 1000)))`.  For a
natural number argument `⌊√(m / 1000)⌋ = Nat.sqrt (m / 1000)` with
truncating division, since `n ≤ √x ↔ n² ≤ x ↔ n² ≤ ⌊x⌋` for integer
`n`. -/
def extractStep (width height : ℕ) : ℕ :=
  max 1 (Nat.sqrt (width * height / 1000))

/-- The sampled grid coordinates in loop order: outer
`for (y = 0; y < height; y += step)`, inner
`for (x = 0; x < width; x += step)`; each loop runs `⌈bound/step⌉`
times. -/
def sampleCoords (width height step : ℕ) : List (ℕ × ℕ) :=
  (List.range' 0 ((height + step - 1) / step) step).flatMap
    (fun y => (List.range' 0 ((width + step - 1) / step) step).map (fun x => (x, y)))

/-- The hex keys sampled by `extractPalette`, in loop order. -/
def sampledHexes (getPix : ℕ → ℕ → ℕ) (width height : ℕ) : List String :=
  (sampleCoords width height (extractStep width height)).map
    (fun p => pixelHex (getPix p.1 p.2))

/-- `colorCounts.set(hex, (colorCounts.get(hex) || 0) + 1)` on a
JavaScript `Map`, which iterates in insertion order: bump the existing
entry in place or append a new one. -/
def bump : List (String × ℕ) → String → List (String × ℕ)
  | [], k => [(k, 1)]
  | (k', v) :: rest, k =>
    if k' = k then (k', v + 1) :: rest else (k', v) :: bump rest k

/-- The `colorCounts` frequency map after the sampling loops. -/
def tallyColors (l : List String) : List (String × ℕ) :=
  l.foldl bump []

/-- The fixed 8-color fallback palette (`defaults`). -/
def fallbackHexes : List String :=
  ["#FF6B6B", "#4ECDC4", "#45B7D1", "#96CEB4", "#FFEAA7", "#DDA0DD", "#98D8C8", "#F7DC6F"]

/-- The padding loop
`while (sorted.length < numColors) sorted.push(defaults[sorted.length % defaults.length])`;
each pass appends one entry, so `numColors` rounds of fuel always cover
the loop. -/
def padSorted (numColors : ℕ) : ℕ → List String → List String
  | 0, l => l
  | fuel + 1, l =>
    if l.length < numColors then
      padSorted numColors fuel
        (l ++ [fallbackHexes.getD (l.length % fallbackHexes.length) ""])
    else l

/-- `extractPalette` of the Jimp-based processors: tally sampled hex
keys, sort entries by descending count (JavaScript's stable `sort` with
comparator `(a, b) => b[1] - a[1]`), take the top `numColors` keys, pad
with the fallback palette. -/
def extractPalette (getPix : ℕ → ℕ → ℕ) (width height numColors : ℕ) : List String :=
  let sorted := (((tallyColors (sampledHexes getPix width height)).mergeSort
      (fun a b => decide (b.2 ≤ a.2))).take numColors).map (fun e => e.1)
  padSorted numColors numColors sorted

/-- Count lookup in the association-list model of the `Map`. -/
def lookupCount : List (String × ℕ) → String → ℕ
  | [], _ => 0
  | (k', v) :: rest, k => if k' = k then v else lookupCount rest k

theorem bump_lookup_self (m : List (String × ℕ)) (k : String) :
    lookupCount (bump m k) k = lookupCount m k + 1 := by
  induction m with
  | nil => simp [bump, lookupCount]
  | cons e rest ih =>
    obtain ⟨k', v⟩ := e
    by_cases h : k' = k
    · simp [bump, lookupCount, h]
    · simp [bump, lookupCount, h, ih]

theorem bump_lookup_ne (m : List (String × ℕ)) (k k' : String) (h : k' ≠ k) :
    lookupCount (bump m k) k' = lookupCount m k' := by
  induction m with
  | nil =>
    simp only [bump, lookupCount]
    rw [if_neg (fun hh => h hh.symm)]
  | cons e rest ih =>
    obtain ⟨k'', v⟩ := e
    by_cases h2 : k'' = k
    · have hne : k'' ≠ k' := by rw [h2]; exact fun hh => h hh.symm
      rw [bump, if_pos h2]
      simp only [lookupCount]
      rw [if_neg hne, if_neg hne]
    · rw [bump, if_neg h2]
      simp only [lookupCount]
      by_cases h3 : k'' = k'
      · rw [if_pos h3, if_pos h3]
      · rw [if_neg h3, if_neg h3, ih]

theorem tally_lookup (l : List String) :
    ∀ (m : List (String × ℕ)) (k : String),
      lookupCount (l.foldl bump m) k = lookupCount m k + l.count k := by
  induction l with
  | nil => intro m k; simp [lookupCount]
  | cons s l ih =>
    intro m k
    rw [List.foldl_cons, ih (bump m s) k]
    by_cases h : s = k
    · subst h
      rw [bump_lookup_self]
      simp [List.count_cons]
      omega
    · rw [bump_lookup_ne m s k (fun hh => h hh.symm)]
      simp [List.count_cons, h]

theorem lookupCount_tallyColors (l : List String) (k : String) :
    lookupCount (tallyColors l) k = l.count k := by
  have := tally_lookup l [] k
  simpa [tallyColors, lookupCount] using this

/-- A key whose lookup is positive owns an entry carrying that count. -/
theorem lookup_mem (m : List (String × ℕ)) (k : String) (h : 0 < lookupCount m k) :
    (k, lookupCount m k) ∈ m := by
  induction m with
  | nil => simp [lookupCount] at h
  | cons e rest ih =>
    obtain ⟨k', v⟩ := e
    by_cases h2 : k' = k
    · subst h2
      simp [lookupCount]
    · rw [lookupCount, if_neg h2] at h ⊢
      exact List.mem_cons_of_mem _ (ih h)

/-- Every entry of the tally is positive. -/
theorem tally_pos (l : List String) :
    ∀ (m : List (String × ℕ)), (∀ e ∈ m, 0 < e.2) →
      ∀ e ∈ l.foldl bump m, 0 < e.2 := by
  induction l with
  | nil => intro m hm; simpa using hm
  | cons s l ih =>
    intro m hm
    refine ih (bump m s) ?_
    have hb : ∀ (m' : List (String × ℕ)), (∀ e ∈ m', 0 < e.2) → ∀ e ∈ bump m' s, 0 < e.2 := by
      intro m'
      induction m' with
      | nil => intro _ e he; simp [bump] at he; simp [he]
      | cons e' rest ih2 =>
        obtain ⟨k', v⟩ := e'
        intro hall e he
        by_cases h2 : k' = s
        · rw [bump, if_pos h2] at he
          rcases List.mem_cons.mp he with rfl | hmem
          · simp
          · exact hall e (List.mem_cons_of_mem _ hmem)
        · rw [bump, if_neg h2] at he
          rcases List.mem_cons.mp he with rfl | hmem
          · exact hall _ (List.mem_cons_self _ _)
          · exact ih2 (fun x hx => hall x (List.mem_cons_of_mem _ hx)) e hmem
    exact hb m hm

theorem mem_bump_keys (m : List (String × ℕ)) (k x : String) :
    x ∈ (bump m k).map Prod.fst ↔ x ∈ m.map Prod.fst ∨ x = k := by
  induction m with
  | nil => simp [bump]
  | cons e rest ih =>
    obtain ⟨k', v⟩ := e
    by_cases h : k' = k
    · subst h
      rw [bump, if_pos rfl]
      simp
      tauto
    · rw [bump, if_neg h]
      simp [ih]
      tauto

theorem bump_keys_nodup (m : List (String × ℕ)) (k : String)
    (h : (m.map Prod.fst).Nodup) : ((bump m k).map Prod.fst).Nodup := by
  induction m with
  | nil => simp [bump]
  | cons e rest ih =>
    obtain ⟨k', v⟩ := e
    simp only [List.map_cons, List.nodup_cons] at h
    by_cases h2 : k' = k
    · rw [bump, if_pos h2]
      simp only [List.map_cons, List.nodup_cons]
      exact h
    · rw [bump, if_neg h2]
      simp only [List.map_cons, List.nodup_cons]
      refine ⟨?_, ih h.2⟩
      intro hmem
      rcases (mem_bump_keys rest k k').mp hmem with hmem2 | hmem2
      · exact h.1 hmem2
      · exact h2 hmem2

theorem tally_keys_nodup (l : List String) :
    ∀ (m : List (String × ℕ)), (m.map Prod.fst).Nodup →
      ((l.foldl bump m).map Prod.fst).Nodup := by
  induction l with
  | nil => intro m hm; simpa using hm
  | cons s l ih => intro m hm; exact ih (bump m s) (bump_keys_nodup m s hm)

theorem lookup_of_mem (m : List (String × ℕ)) (hnod : (m.map Prod.fst).Nodup) :
    ∀ e ∈ m, lookupCount m e.1 = e.2 := by
  induction m with
  | nil => simp
  | cons e0 rest ih =>
    obtain ⟨k', v⟩ := e0
    simp only [List.map_cons, List.nodup_cons] at hnod
    intro e he
    rcases List.mem_cons.mp he with rfl | hmem
    · simp [lookupCount]
    · have hkey : e.1 ∈ rest.map Prod.fst := List.mem_map_of_mem Prod.fst hmem
      have hne : k' ≠ e.1 := fun hh => hnod.1 (hh ▸ hkey)
      rw [lookupCount, if_neg hne]
      exact ih hnod.2 e hmem

/-- Every tally entry carries the exact occurrence count of its key, and
its key occurs in the sample. -/
theorem tally_entry_count (l : List String) (e : String × ℕ) (he : e ∈ tallyColors l) :
    e.2 = l.count e.1 ∧ e.1 ∈ l := by
  have hnod := tally_keys_nodup l [] (by simp)
  have h1 : lookupCount (tallyColors l) e.1 = e.2 := lookup_of_mem _ hnod e he
  have h2 : lookupCount (tallyColors l) e.1 = l.count e.1 := lookupCount_tallyColors l e.1
  have hpos : 0 < e.2 := tally_pos l [] (by simp) e he
  refine ⟨by omega, ?_⟩
  have : 0 < l.count e.1 := by omega
  exact List.count_pos_iff.mp this

theorem tally_ne_nil (l : List String) (h : l ≠ []) : tallyColors l ≠ [] := by
  match l, h with
  | s :: rest, _ =>
    intro hnil
    have hc := lookupCount_tallyColors (s :: rest) s
    rw [hnil] at hc
    simp [lookupCount, List.count_cons] at hc

/-- Unfolded form of the padding loop: with enough fuel, `padSorted`
appends the fallback colors at positions `l.length, l.length + 1, ...`
cyclically until length `numColors`. -/
theorem padSorted_eq_append (numColors : ℕ) :
    ∀ (fuel : ℕ) (l : List String), numColors ≤ l.length + fuel →
      padSorted numColors fuel l
        = l ++ (List.range (numColors - l.length)).map
            (fun j => fallbackHexes.getD ((l.length + j) % fallbackHexes.length) "") := by
  intro fuel
  induction fuel with
  | zero =>
    intro l h
    have h0 : numColors - l.length = 0 := by omega
    simp [padSorted, h0]
  | succ fuel ih =>
    intro l h
    rw [padSorted]
    by_cases hlen : l.length < numColors
    · rw [if_pos hlen, ih _ (by simp; omega)]
      simp only [List.length_append, List.length_cons, List.length_nil, Nat.zero_add]
      have hm : numColors - l.length = (numColors - (l.length + 1)) + 1 := by omega
      rw [hm, List.range_succ_eq_map, List.map_cons, List.map_map]
      rw [List.append_assoc]
      simp only [List.singleton_append, Nat.add_zero]
      have hfun : ((fun j => fallbackHexes.getD ((l.length + j) % fallbackHexes.length) "")
            ∘ Nat.succ)
          = (fun j => fallbackHexes.getD ((l.length + 1 + j) % fallbackHexes.length) "") := by
        funext j
        simp only [Function.comp_apply]
        rw [show l.length + Nat.succ j = l.length + 1 + j by omega]
      rw [hfun]
    · rw [if_neg hlen]
      have h0 : numColors - l.length = 0 := by omega
      simp [h0]

/-- Default string used for out-of-range palette reads in statements. -/
def noColor : String := ""

/-- C6: the Palette Orderer's output always has length exactly
`numColors`; with an empty sample every entry is drawn from the fixed
8-color fallback palette in cyclic order (`entry i = fallback[i mod 8]`);
with a non-empty sample, entry 0 is a sampled color of maximal
occurrence count. -/
theorem extractPalette_spec (getPix : ℕ → ℕ → ℕ) (width height numColors : ℕ) :
    (extractPalette getPix width height numColors).length = numColors ∧
    (sampledHexes getPix width height = [] →
      ∀ i, i < numColors →
        (extractPalette getPix width height numColors).getD i noColor
          = fallbackHexes.getD (i % 8) noColor) ∧
    (sampledHexes getPix width height ≠ [] → 1 ≤ numColors →
      ∃ hex, (extractPalette getPix width height numColors).getD 0 noColor = hex ∧
        hex ∈ sampledHexes getPix width height ∧
        ∀ h' ∈ sampledHexes getPix width height,
          (sampledHexes getPix width height).count h'
            ≤ (sampledHexes getPix width height).count hex) := by
  have hL8 : fallbackHexes.length = 8 := rfl
  refine ⟨?_, ?_, ?_⟩
  · simp only [extractPalette]
    rw [padSorted_eq_append numColors numColors _ (by omega)]
    simp only [List.length_append, List.length_map, List.length_range, List.length_take]
    omega
  · intro hempty i hi
    have htal : tallyColors (sampledHexes getPix width height) = [] := by
      rw [hempty]
      rfl
    simp only [extractPalette, htal, List.mergeSort_nil, List.take_nil, List.map_nil]
    rw [padSorted_eq_append numColors numColors [] (by simp)]
    simp only [List.nil_append, List.length_nil, Nat.zero_add, Nat.sub_zero]
    rw [List.getD_eq_getElem?_getD, List.getElem?_map, List.getElem?_range hi]
    simp [hL8, noColor]
  · intro hne hK
    have hsortperm := List.mergeSort_perm
      (tallyColors (sampledHexes getPix width height)) (fun a b => decide (b.2 ≤ a.2))
    have hsorted : ((tallyColors (sampledHexes getPix width height)).mergeSort
        (fun a b => decide (b.2 ≤ a.2))).Pairwise
          (fun x y => (fun (a b : String × ℕ) => decide (b.2 ≤ a.2)) x y) :=
      List.sorted_mergeSort (by intro a b c h1 h2; simp at *; omega)
        (by intro a b; simp; omega) _
    cases hms : (tallyColors (sampledHexes getPix width height)).mergeSort
        (fun a b => decide (b.2 ≤ a.2)) with
    | nil =>
      exfalso
      rw [hms] at hsortperm
      exact tally_ne_nil _ hne hsortperm.nil_eq.symm
    | cons hd tl =>
      rw [hms] at hsorted
      have hmem : hd ∈ tallyColors (sampledHexes getPix width height) := by
        have hmm : hd ∈ (tallyColors (sampledHexes getPix width height)).mergeSort
            (fun a b => decide (b.2 ≤ a.2)) := by
          rw [hms]
          exact List.mem_cons_self _ _
        exact List.mem_mergeSort.mp hmm
      have hhd2 : hd.2 = (sampledHexes getPix width height).count hd.1 :=
        (tally_entry_count _ hd hmem).1
      obtain ⟨m, rfl⟩ : ∃ m, numColors = m + 1 := ⟨numColors - 1, by omega⟩
      refine ⟨hd.1, ?_, (tally_entry_count _ hd hmem).2, ?_⟩
      · simp only [extractPalette, hms, List.take_succ_cons, List.map_cons]
        rw [padSorted_eq_append (m + 1) (m + 1) _ (by simp)]
        simp [List.cons_append]
      · intro h' hh'
        have hcnt : 0 < (sampledHexes getPix width height).count h' :=
          List.count_pos_iff.mpr hh'
        have hlk := lookupCount_tallyColors (sampledHexes getPix width height) h'
        have hment : (h', (sampledHexes getPix width height).count h')
            ∈ tallyColors (sampledHexes getPix width height) := by
          have hlm := lookup_mem (tallyColors (sampledHexes getPix width height)) h'
            (by rw [hlk]; exact hcnt)
          rw [hlk] at hlm
          exact hlm
        have hsle : (sampledHexes getPix width height).count h' ≤ hd.2 := by
          have hmm : (h', (sampledHexes getPix width height).count h') ∈ hd :: tl := by
            rw [← hms]
            exact List.mem_mergeSort.mpr hment
          rcases List.mem_cons.mp hmm with heq | hmem3
          · have hq := congrArg Prod.snd heq
            simp at hq
            omega
          · have hp := (List.pairwise_cons.mp hsorted).1 _ hmem3
            simpa using hp
        omega

/-- C6 witness: a 1×1 black bitmap with `numColors = 2`. -/
theorem extractPalette_spec_witness :
    (extractPalette (fun _ _ => 0) 1 1 2).length = 2 :=
  (extractPalette_spec (fun _ _ => 0) 1 1 2).1

/-- Dimensions of a decoded Jimp image.  The pixel contents never
matter to the claims below, because every Jimp mutation (resize,
greyscale, contrast, JPEG encode) is kept abstract in the `process`
parameter. -/
structure JimpImage where
  width : ℕ
  height : ℕ
  deriving DecidableEq, Repr

/-- The module-level bypass flag of the Jimp-based processor, as
committed: `const BYPASS_PROCESSING = true`. -/
def BYPASS_PROCESSING : Bool := true

/-- `header[0] === 0xff && header[1] === 0xd8` on `buffer.slice(0, 8)`:
an out-of-range read gives `undefined` in JavaScript and compares
unequal, matching the `getD _ 0` default here since `0` is neither
magic byte. -/
def isJpegHeader (buf : List ℕ) : Bool :=
  decide (buf.getD 0 0 = 0xff) && decide (buf.getD 1 0 = 0xd8)

/-- The 400×300 gray placeholder image created when Jimp cannot decode
a non-JPEG input (the diagonal-line drawing only alters pixel contents,
which the claims never inspect). -/
def placeholderImage : JimpImage :=
  { width := 400, height := 300 }

/-- Result of `photoToColoringPage`: a returned buffer, or the typed
error thrown to the caller. -/
inductive ColoringResult where
  | ok (bytes : List ℕ)
  | err (msg : String)
  deriving DecidableEq, Repr

/-- The final `getBuffer` validity check of the Jimp-based
`photoToColoringPage`: an output that is not a valid JPEG falls back to
the original buffer when that was a JPEG, otherwise the function throws
(wrapped by the outer catch into the typed failure message). -/
def finishJimp (isJpeg : Bool) (orig buffer : List ℕ) : ColoringResult :=
  if isJpegHeader buffer then ColoringResult.ok buffer
  else if isJpeg then ColoringResult.ok orig
  else ColoringResult.err ("Bildverarbeitung fehlgeschlagen: Generated invalid JPEG")

/-- Control flow of `photoToColoringPage` in the Jimp-based processor
with the committed `BYPASS_PROCESSING = true`:

* a JPEG input is returned unchanged by the bypass;
* otherwise the buffer is decoded with `Jimp.read` (the external
  decoder is the parameter `jimpRead`);
* when decoding fails, a JPEG original is returned as-is, and any
  other input is replaced by the 400×300 placeholder image;
* the decoded (or placeholder) image runs through the
  resize/greyscale/contrast/encode chain, kept abstract as `process`,
  and the result passes the final JPEG validity check. -/
def photoToColoringPage5 (jimpRead : List ℕ → Option JimpImage)
    (process : JimpImage → List ℕ) (imageBuffer : List ℕ) : ColoringResult :=
  let isJpeg := isJpegHeader imageBuffer
  if BYPASS_PROCESSING && isJpeg then ColoringResult.ok imageBuffer
  else
    match jimpRead imageBuffer with
    | some image => finishJimp isJpeg imageBuffer (process image)
    | none =>
      if isJpeg then ColoringResult.ok imageBuffer
      else finishJimp isJpeg imageBuffer (process placeholderImage)

/-- C10: with the committed bypass flag, any buffer whose first two
bytes are the JPEG magic `0xFF 0xD8` is returned byte-for-byte
unchanged, whatever the decoder and the processing chain would do: the
transform is the identity on JPEG inputs and no grayscale, edge or
resize step runs. -/
theorem bypass_identity_on_jpeg (jimpRead : List ℕ → Option JimpImage)
    (process : JimpImage → List ℕ) (imageBuffer : List ℕ)
    (h0 : imageBuffer.getD 0 0 = 0xff) (h1 : imageBuffer.getD 1 0 = 0xd8) :
    photoToColoringPage5 jimpRead process imageBuffer = ColoringResult.ok imageBuffer := by
  have hj : isJpegHeader imageBuffer = true := by
    unfold isJpegHeader
    rw [h0, h1]
    decide
  simp [photoToColoringPage5, hj, BYPASS_PROCESSING]

/-- C10 witness: a 3-byte JPEG-magic buffer with a decoder that fails
and a processing chain that would return an empty buffer; the input
still comes back unchanged. -/
theorem bypass_identity_on_jpeg_witness :
    ([255, 216, 7] : List ℕ).getD 0 0 = 0xff ∧
    ([255, 216, 7] : List ℕ).getD 1 0 = 0xd8 ∧
    photoToColoringPage5 (fun _ => none) (fun _ => []) [255, 216, 7]
      = ColoringResult.ok [255, 216, 7] :=
  ⟨by decide, by decide,
    bypass_identity_on_jpeg (fun _ => none) (fun _ => []) [255, 216, 7]
      (by decide) (by decide)⟩

/-- C2 (code evaluation at the failing input): a 1-byte non-JPEG buffer
that the decoder rejects is not reported as a failure — the function
silently substitutes the 400×300 placeholder image, processes it (the
abstract encode chain here returns the minimal valid-JPEG header
`[0xff, 0xd8]`), and returns that as a success; no `err` is produced. -/
theorem photoToColoringPage5_substitutes_placeholder :
    photoToColoringPage5 (fun _ => none) (fun _ => [255, 216]) [0]
        = ColoringResult.ok [255, 216] ∧
    (ColoringResult.ok [255, 216] : ColoringResult) ≠ ColoringResult.ok [0] ∧
    (∀ msg, photoToColoringPage5 (fun _ => none) (fun _ => [255, 216]) [0]
        ≠ ColoringResult.err msg) := by
  refine ⟨by decide, by decide, ?_⟩
  intro msg h
  rw [show photoToColoringPage5 (fun _ => none) (fun _ => [255, 216]) [0]
      = ColoringResult.ok [255, 216] from by decide] at h
  simp at h

/-- C8 witness: the round-trip at the concrete channels (12, 34, 56),
whose hex string is "#0c2238". -/
theorem hex_roundtrip_witness :
    (12 ≤ 255 ∧ 34 ≤ 255 ∧ 56 ≤ 255) ∧
    hexToRgbChannels (rgbToHex 12 34 56) = (12, 34, 56) :=
  ⟨⟨by decide, by decide, by decide⟩,
    hex_roundtrip 12 34 56 (by decide) (by decide) (by decide)⟩
